import Mathlib

/-!
Shallow embedding of `scripts/gen-endpoints.py`.

The script reads a discovery document (nested JSON of resources and
methods) and emits a flattened, sorted text index of endpoints:

* `extract(resources, prefix)` iterates `sorted(resources.items())`,
  computes a dotted qualified path, emits one formatted line per method
  (in `sorted` order of method names), then recurses into nested
  resources, appending their lines after the current level's own.
* A method line is `f"{http_method:6s} {api_path:60s} {path}.{mname}"`,
  where `api_path` defaults to `"N/A"` when the `path` key is absent and
  `method["httpMethod"]` raises `KeyError` when absent.
* `main` applies `extract` to `doc.get("resources", {})`, writes
  `"\n".join(lines) + "\n"` to the output file and prints
  `f"  {len(lines)} endpoints indexed."`.

JSON objects are modelled as association lists (`List (String × ·)`);
an absent key is `none`.  The `KeyError` raised on a missing
`httpMethod` is modelled by `Option`: `none` is the failing run.
-/

/-- A method entry of the discovery document: the `httpMethod` and
`path` keys of the JSON object, `none` when the key is absent. -/
structure MethodSpec where
  httpMethod : Option String
  path : Option String
  deriving DecidableEq

/-- A resource node: optional `methods` and `resources` mappings,
mirroring the nested JSON objects. -/
inductive ResourceNode where
  | mk (methods : Option (List (String × MethodSpec)))
       (resources : Option (List (String × ResourceNode))) : ResourceNode

/-- The `methods` mapping of a resource node (`none` when absent). -/
def ResourceNode.methods : ResourceNode → Option (List (String × MethodSpec))
  | .mk ms _ => ms

/-- The `resources` mapping of a resource node (`none` when absent). -/
def ResourceNode.resources : ResourceNode → Option (List (String × ResourceNode))
  | .mk _ rs => rs

/-- Python's `f"{s:ns}"` / `str.ljust`: left-justify `s` in a field of
width `w`, padding with spaces on the right; longer strings are kept. -/
def pyLjust (s : String) (w : Nat) : String :=
  s ++ String.mk (List.replicate (w - s.length) ' ')

/-- One output line, `f"{http_method:6s} {api_path:60s} {qualifiedName}"`. -/
def formatLine (httpMethod apiPath qualifiedName : String) : String :=
  pyLjust httpMethod 6 ++ " " ++ pyLjust apiPath 60 ++ " " ++ qualifiedName

/-- The qualified path, `prefix + "." + name if prefix else name`
(the empty string is falsy in Python). -/
def qualify (pre name : String) : String :=
  if pre = "" then name else pre ++ "." ++ name

/-- Python's `<=` on strings restricted to char lists: lexicographic
comparison of code points. -/
def strLeAux : List Char → List Char → Bool
  | [], _ => true
  | _ :: _, [] => false
  | a :: as, b :: bs =>
    if a.toNat < b.toNat then true
    else if b.toNat < a.toNat then false
    else strLeAux as bs

/-- Python's `a <= b` on strings: lexicographic by code point. -/
def strLe (a b : String) : Bool := strLeAux a.data b.data

/-- The key order used by `sorted(d.items())`. -/
def keyLe {α : Type} (a b : String × α) : Prop := strLe a.1 b.1 = true

instance keyLeDecidable {α : Type} : DecidableRel (keyLe (α := α)) :=
  fun a b => inferInstanceAs (Decidable (strLe a.1 b.1 = true))

theorem strLeAux_total : ∀ as bs, strLeAux as bs = true ∨ strLeAux bs as = true := by
  intro as
  induction as with
  | nil => intro bs; left; rfl
  | cons a as ih =>
    intro bs
    cases bs with
    | nil => right; rfl
    | cons b bs =>
      simp only [strLeAux]
      rcases Nat.lt_trichotomy a.toNat b.toNat with h | h | h
      · left; simp [h]
      · have h1 : ¬ a.toNat < b.toNat := by omega
        have h2 : ¬ b.toNat < a.toNat := by omega
        simpa [h1, h2] using ih bs
      · right; simp [h]

theorem strLeAux_trans :
    ∀ as bs cs, strLeAux as bs = true → strLeAux bs cs = true →
      strLeAux as cs = true := by
  intro as
  induction as with
  | nil => intro bs cs _ _; rfl
  | cons a as ih =>
    intro bs cs h1 h2
    cases bs with
    | nil => simp [strLeAux] at h1
    | cons b bs =>
      cases cs with
      | nil => simp [strLeAux] at h2
      | cons c cs =>
        simp only [strLeAux] at h1 h2 ⊢
        by_cases hab : a.toNat < b.toNat
        · by_cases hbc : b.toNat < c.toNat
          · simp [show a.toNat < c.toNat by omega]
          · by_cases hcb : c.toNat < b.toNat
            · simp [hbc, hcb] at h2
            · simp [show a.toNat < c.toNat by omega]
        · by_cases hba : b.toNat < a.toNat
          · simp [hab, hba] at h1
          · by_cases hbc : b.toNat < c.toNat
            · simp [show a.toNat < c.toNat by omega]
            · by_cases hcb : c.toNat < b.toNat
              · simp [hbc, hcb] at h2
              · simp [hab, hba] at h1
                simp [hbc, hcb] at h2
                simp only [show ¬ a.toNat < c.toNat by omega,
                  show ¬ c.toNat < a.toNat by omega, if_false, if_neg,
                  not_false_eq_true]
                exact ih bs cs h1 h2

instance keyLeTotal {α : Type} : IsTotal (String × α) keyLe :=
  ⟨fun a b => strLeAux_total a.1.data b.1.data⟩

instance keyLeTrans {α : Type} : IsTrans (String × α) keyLe :=
  ⟨fun _ _ _ h1 h2 => strLeAux_trans _ _ _ h1 h2⟩

/-- Python's `sorted(d.items())` on a dict: the entries ordered by key
(dict keys are distinct, so comparison never reaches the values). -/
def sortByKey {α : Type} (l : List (String × α)) : List (String × α) :=
  l.insertionSort keyLe

/-- The inner loop of `extract`: emit one line per (already sorted)
method entry; a method without `httpMethod` raises (`none`). -/
def methodLines (qp : String) : List (String × MethodSpec) → Option (List String)
  | [] => some []
  | (mname, m) :: rest =>
    match m.httpMethod with
    | none => none
    | some hm =>
      match methodLines qp rest with
      | none => none
      | some tail =>
        some (formatLine hm (m.path.getD "N/A") (qp ++ "." ++ mname) :: tail)

theorem sizeOf_perm {α : Type} [SizeOf α] {l₁ l₂ : List α}
    (h : List.Perm l₁ l₂) : sizeOf l₁ = sizeOf l₂ := by
  induction h with
  | nil => rfl
  | cons x _ ih => simp only [List.cons.sizeOf_spec]; omega
  | swap x y l => simp only [List.cons.sizeOf_spec]; omega
  | trans _ _ ih₁ ih₂ => omega

theorem sizeOf_sortByKey {α : Type} [SizeOf α] (l : List (String × α)) :
    sizeOf (sortByKey l) = sizeOf l :=
  sizeOf_perm (List.perm_insertionSort _ l)

theorem sizeOf_resources_getD (r : ResourceNode) :
    sizeOf (r.resources.getD []) < sizeOf r := by
  cases r with
  | mk ms rs =>
    cases rs with
    | none => simp [ResourceNode.resources]
    | some xs =>
      simp only [ResourceNode.resources, Option.getD_some,
        ResourceNode.mk.sizeOf_spec, Option.some.sizeOf_spec]
      omega

/-- The body of `extract` run on an already key-sorted entry list: for
each resource, the lines of its own methods (in sorted order), then the
lines of its nested resources (recursively, with the qualified path as
the new dotted prefix), then the following entries. -/
def extractGo : List (String × ResourceNode) → String → Option (List String)
  | [], _ => some []
  | (name, res) :: rest, pre =>
    match methodLines (qualify pre name) (sortByKey (res.methods.getD [])) with
    | none => none
    | some mls =>
      match extractGo (sortByKey (res.resources.getD [])) (qualify pre name) with
      | none => none
      | some sub =>
        match extractGo rest pre with
        | none => none
        | some tail => some (mls ++ sub ++ tail)
termination_by l _ => sizeOf l
decreasing_by
  · simp only [List.cons.sizeOf_spec, Prod.mk.sizeOf_spec, sizeOf_sortByKey]
    have h1 := sizeOf_resources_getD res
    omega
  · simp only [List.cons.sizeOf_spec]
    omega

/-- The script's `extract(resources, prefix)`: sort the entries by name,
then process them. -/
def extract (resources : List (String × ResourceNode)) (pre : String) :
    Option (List String) :=
  extractGo (sortByKey resources) pre

/-- The `(http_method, api_path, qualifiedName)` field triples of the
lines `methodLines` emits, one per method entry: the first component is
the method's `httpMethod` value (raising, i.e. `none`, when the key is
absent), the second is `method.get("path", "N/A")` and the third is
`qp ++ "." ++ mname`. -/
def methodFields (qp : String) :
    List (String × MethodSpec) → Option (List (String × String × String))
  | [] => some []
  | (mname, m) :: rest =>
    match m.httpMethod with
    | none => none
    | some hm =>
      match methodFields qp rest with
      | none => none
      | some tail => some ((hm, m.path.getD "N/A", qp ++ "." ++ mname) :: tail)

/-- The field triples of the lines `extractGo` emits, gathered by the
same traversal. -/
def endpointFieldsGo :
    List (String × ResourceNode) → String → Option (List (String × String × String))
  | [], _ => some []
  | (name, res) :: rest, pre =>
    match methodFields (qualify pre name) (sortByKey (res.methods.getD [])) with
    | none => none
    | some mfs =>
      match endpointFieldsGo (sortByKey (res.resources.getD [])) (qualify pre name) with
      | none => none
      | some sub =>
        match endpointFieldsGo rest pre with
        | none => none
        | some tail => some (mfs ++ sub ++ tail)
termination_by l _ => sizeOf l
decreasing_by
  · simp only [List.cons.sizeOf_spec, Prod.mk.sizeOf_spec, sizeOf_sortByKey]
    have h1 := sizeOf_resources_getD res
    omega
  · simp only [List.cons.sizeOf_spec]
    omega

/-- The field triples of the lines `extract` emits. -/
def endpointFields (l : List (String × ResourceNode)) (pre : String) :
    Option (List (String × String × String)) :=
  endpointFieldsGo (sortByKey l) pre

/-- The parsed discovery document: its top-level `resources` key
(`none` when absent). -/
structure DiscoveryDoc where
  resources : Option (List (String × ResourceNode))

/-- The lines computed by `main`: `extract(doc.get("resources", {}))`. -/
def mainLines (doc : DiscoveryDoc) : Option (List String) :=
  extract (doc.resources.getD []) ""

/-- The bytes `main` writes to the output file: `"\n".join(lines) + "\n"`. -/
def outputFileContent (lines : List String) : String :=
  String.intercalate "\n" lines ++ "\n"

/-- The output file produced by a run of `main` (`none`: the run raised). -/
def outputFile (doc : DiscoveryDoc) : Option String :=
  (mainLines doc).map outputFileContent

/-- The line `main` prints to stdout: `f"  {len(lines)} endpoints indexed."`. -/
def summaryOutput (doc : DiscoveryDoc) : Option String :=
  (mainLines doc).map (fun lines => "  " ++ toString lines.length ++ " endpoints indexed.")

/-- Total number of method entries in all resource nodes reachable from
the given mapping (recursively). -/
def countList : List (String × ResourceNode) → Nat
  | [] => 0
  | (_, res) :: rest =>
    (res.methods.getD []).length + countList (res.resources.getD []) + countList rest
termination_by l => sizeOf l
decreasing_by
  · simp only [List.cons.sizeOf_spec, Prod.mk.sizeOf_spec]
    have h1 := sizeOf_resources_getD res
    omega
  · simp only [List.cons.sizeOf_spec]
    omega

/-- Every method entry reachable from the mapping (recursively) carries
an `httpMethod` key. -/
def allMethodsOkList : List (String × ResourceNode) → Bool
  | [] => true
  | (_, res) :: rest =>
    ((res.methods.getD []).all fun p => p.2.httpMethod.isSome)
      && allMethodsOkList (res.resources.getD [])
      && allMethodsOkList rest
termination_by l => sizeOf l
decreasing_by
  · simp only [List.cons.sizeOf_spec, Prod.mk.sizeOf_spec]
    have h1 := sizeOf_resources_getD res
    omega
  · simp only [List.cons.sizeOf_spec]
    omega

theorem extractGo_nil (pre : String) : extractGo [] pre = some [] := by
  simp [extractGo]

theorem extractGo_cons (name : String) (res : ResourceNode)
    (rest : List (String × ResourceNode)) (pre : String) :
    extractGo ((name, res) :: rest) pre =
      (methodLines (qualify pre name) (sortByKey (res.methods.getD []))).bind (fun mls =>
        (extractGo (sortByKey (res.resources.getD [])) (qualify pre name)).bind (fun sub =>
          (extractGo rest pre).map (fun tail => mls ++ sub ++ tail))) := by
  rw [extractGo]
  cases methodLines (qualify pre name) (sortByKey (res.methods.getD [])) with
  | none => rfl
  | some mls =>
    cases extractGo (sortByKey (res.resources.getD [])) (qualify pre name) with
    | none => rfl
    | some sub =>
      cases extractGo rest pre with
      | none => rfl
      | some tail => rfl

theorem extractGo_append (l₁ l₂ : List (String × ResourceNode)) (pre : String) :
    extractGo (l₁ ++ l₂) pre =
      (extractGo l₁ pre).bind (fun a => (extractGo l₂ pre).map (fun b => a ++ b)) := by
  induction l₁ with
  | nil =>
    simp only [List.nil_append, extractGo_nil, Option.bind]
    cases extractGo l₂ pre with
    | none => rfl
    | some b => rfl
  | cons hd tl ih =>
    obtain ⟨name, res⟩ := hd
    simp only [List.cons_append, extractGo_cons, ih]
    cases methodLines (qualify pre name) (sortByKey (res.methods.getD [])) with
    | none => rfl
    | some mls =>
      cases extractGo (sortByKey (res.resources.getD [])) (qualify pre name) with
      | none => rfl
      | some sub =>
        cases extractGo tl pre with
        | none => rfl
        | some a =>
          cases extractGo l₂ pre with
          | none => rfl
          | some b => simp [List.append_assoc]

theorem sortByKey_nil {α : Type} : sortByKey ([] : List (String × α)) = [] := rfl

theorem sortByKey_single {α : Type} (p : String × α) : sortByKey [p] = [p] := by
  simp [sortByKey]

theorem sortByKey_perm {α : Type} (l : List (String × α)) :
    List.Perm (sortByKey l) l :=
  List.perm_insertionSort keyLe l

theorem extract_nil (pre : String) : extract [] pre = some [] := by
  simp [extract, sortByKey_nil, extractGo_nil]

theorem extract_single (name pre : String) (res : ResourceNode) :
    extract [(name, res)] pre =
      (methodLines (qualify pre name) (sortByKey (res.methods.getD []))).bind
        (fun mls => (extract (res.resources.getD []) (qualify pre name)).map
          (fun sub => mls ++ sub)) := by
  simp only [extract, sortByKey_single, extractGo_cons, extractGo_nil]
  cases methodLines (qualify pre name) (sortByKey (res.methods.getD [])) with
  | none => rfl
  | some mls =>
    cases extractGo (sortByKey (res.resources.getD [])) (qualify pre name) with
    | none => rfl
    | some sub => simp

theorem methodLines_length (qp : String) :
    ∀ (ms : List (String × MethodSpec)) (out : List String),
      methodLines qp ms = some out → out.length = ms.length := by
  intro ms
  induction ms with
  | nil =>
    intro out h
    simp only [methodLines, Option.some.injEq] at h
    subst h
    rfl
  | cons hd tl ih =>
    obtain ⟨mname, m⟩ := hd
    intro out h
    cases hm : m.httpMethod with
    | none => simp [methodLines, hm] at h
    | some v =>
      cases ht : methodLines qp tl with
      | none => simp [methodLines, hm, ht] at h
      | some tail =>
        simp only [methodLines, hm, ht, Option.some.injEq] at h
        subst h
        simp [ih tail ht]

theorem countList_perm {l₁ l₂ : List (String × ResourceNode)}
    (h : List.Perm l₁ l₂) : countList l₁ = countList l₂ := by
  induction h with
  | nil => rfl
  | cons x _ ih =>
    obtain ⟨n, r⟩ := x
    simp only [countList]
    omega
  | swap x y l =>
    obtain ⟨n, r⟩ := x
    obtain ⟨m, s⟩ := y
    simp only [countList]
    omega
  | trans _ _ ih₁ ih₂ => omega

theorem countList_sortByKey (l : List (String × ResourceNode)) :
    countList (sortByKey l) = countList l :=
  countList_perm (sortByKey_perm l)

theorem extractGo_length :
    ∀ (l : List (String × ResourceNode)) (pre : String) (out : List String),
      extractGo l pre = some out → out.length = countList l := by
  intro l pre
  induction l, pre using extractGo.induct with
  | case1 pre =>
    intro out h
    rw [extractGo_nil] at h
    simp only [Option.some.injEq] at h
    subst h
    simp [countList]
  | case2 name res rest pre hnone =>
    intro out h
    rw [extractGo_cons, hnone] at h
    simp at h
  | case3 name res rest pre mls hmls hnone ihsub =>
    intro out h
    rw [extractGo_cons, hmls, hnone] at h
    simp at h
  | case4 name res rest pre mls hmls sub hsub hnone ihsub ihrest =>
    intro out h
    rw [extractGo_cons, hmls, hsub, hnone] at h
    simp at h
  | case5 name res rest pre mls hmls sub hsub tl htl ihsub ihrest =>
    intro out h
    rw [extractGo_cons, hmls, hsub, htl] at h
    simp only [Option.some_bind, Option.map_some', Option.some.injEq] at h
    subst h
    have h1 := methodLines_length (qualify pre name) _ _ hmls
    have h2 := ihsub _ hsub
    have h3 := ihrest _ htl
    rw [countList_sortByKey] at h2
    simp only [countList, List.length_append, List.length_insertionSort] at *
    simp only [sortByKey, List.length_insertionSort] at h1
    omega

theorem endpointFieldsGo_nil (pre : String) : endpointFieldsGo [] pre = some [] := by
  simp [endpointFieldsGo]

theorem endpointFieldsGo_cons (name : String) (res : ResourceNode)
    (rest : List (String × ResourceNode)) (pre : String) :
    endpointFieldsGo ((name, res) :: rest) pre =
      (methodFields (qualify pre name) (sortByKey (res.methods.getD []))).bind (fun mfs =>
        (endpointFieldsGo (sortByKey (res.resources.getD [])) (qualify pre name)).bind (fun sub =>
          (endpointFieldsGo rest pre).map (fun tail => mfs ++ sub ++ tail))) := by
  rw [endpointFieldsGo]
  cases methodFields (qualify pre name) (sortByKey (res.methods.getD [])) with
  | none => rfl
  | some mfs =>
    cases endpointFieldsGo (sortByKey (res.resources.getD [])) (qualify pre name) with
    | none => rfl
    | some sub =>
      cases endpointFieldsGo rest pre with
      | none => rfl
      | some tail => rfl

theorem methodLines_eq_fields (qp : String) :
    ∀ ms : List (String × MethodSpec),
      methodLines qp ms = (methodFields qp ms).map
        (List.map (fun e => formatLine e.1 e.2.1 e.2.2)) := by
  intro ms
  induction ms with
  | nil => rfl
  | cons hd tl ih =>
    obtain ⟨mname, m⟩ := hd
    cases hm : m.httpMethod with
    | none => simp [methodLines, methodFields, hm]
    | some v =>
      cases ht : methodFields qp tl with
      | none =>
        rw [ht] at ih
        simp [methodLines, methodFields, hm, ht, ih]
      | some fs =>
        rw [ht] at ih
        simp only [Option.map_some'] at ih
        simp [methodLines, methodFields, hm, ht, ih]

theorem extractGo_eq_fieldsGo :
    ∀ (l : List (String × ResourceNode)) (pre : String),
      extractGo l pre = (endpointFieldsGo l pre).map
        (List.map (fun e => formatLine e.1 e.2.1 e.2.2)) := by
  intro l pre
  induction l, pre using endpointFieldsGo.induct with
  | case1 pre =>
    rw [extractGo_nil, endpointFieldsGo_nil]
    rfl
  | case2 name res rest pre hnone =>
    simp [extractGo_cons, endpointFieldsGo_cons, methodLines_eq_fields, hnone]
  | case3 name res rest pre mfs hmfs hnone ihsub =>
    rw [hnone] at ihsub
    simp [extractGo_cons, endpointFieldsGo_cons, methodLines_eq_fields, hmfs, hnone, ihsub]
  | case4 name res rest pre mfs hmfs sub hsub hnone ihsub ihrest =>
    rw [hsub] at ihsub
    rw [hnone] at ihrest
    simp [extractGo_cons, endpointFieldsGo_cons, methodLines_eq_fields, hmfs, hsub, hnone,
      ihsub, ihrest]
  | case5 name res rest pre mfs hmfs sub hsub tl htl ihsub ihrest =>
    rw [hsub] at ihsub
    rw [htl] at ihrest
    simp [extractGo_cons, endpointFieldsGo_cons, methodLines_eq_fields, hmfs, hsub, htl,
      ihsub, ihrest]

theorem extract_eq_endpointFields (l : List (String × ResourceNode)) (pre : String) :
    extract l pre = (endpointFields l pre).map
      (List.map (fun e => formatLine e.1 e.2.1 e.2.2)) :=
  extractGo_eq_fieldsGo (sortByKey l) pre

theorem methodLines_isSome (qp : String) :
    ∀ ms : List (String × MethodSpec),
      (∀ p ∈ ms, p.2.httpMethod.isSome = true) →
      (methodLines qp ms).isSome = true := by
  intro ms
  induction ms with
  | nil => intro _; rfl
  | cons hd tl ih =>
    obtain ⟨mname, m⟩ := hd
    intro h
    have hhd : m.httpMethod.isSome = true := h (mname, m) (List.mem_cons_self _ _)
    obtain ⟨v, hv⟩ := Option.isSome_iff_exists.mp hhd
    have htl := ih (fun p hp => h p (List.mem_cons_of_mem _ hp))
    obtain ⟨tail, ht⟩ := Option.isSome_iff_exists.mp htl
    simp [methodLines, hv, ht]

theorem allMethodsOkList_perm {l₁ l₂ : List (String × ResourceNode)}
    (h : List.Perm l₁ l₂) : allMethodsOkList l₁ = allMethodsOkList l₂ := by
  induction h with
  | nil => rfl
  | cons x _ ih =>
    obtain ⟨n, r⟩ := x
    simp only [allMethodsOkList]
    rw [ih]
  | swap x y l =>
    obtain ⟨n, r⟩ := x
    obtain ⟨m, s⟩ := y
    simp only [allMethodsOkList]
    cases ((r.methods.getD []).all fun p => p.2.httpMethod.isSome) <;>
      cases ((s.methods.getD []).all fun p => p.2.httpMethod.isSome) <;>
      cases allMethodsOkList (r.resources.getD []) <;>
      cases allMethodsOkList (s.resources.getD []) <;>
      simp
  | trans _ _ ih₁ ih₂ => rw [ih₁, ih₂]

theorem extractGo_isSome :
    ∀ (l : List (String × ResourceNode)) (pre : String),
      allMethodsOkList l = true → (extractGo l pre).isSome = true := by
  intro l pre
  induction l, pre using extractGo.induct with
  | case1 pre =>
    intro _
    rw [extractGo_nil]
    rfl
  | case2 name res rest pre hnone =>
    intro h
    simp only [allMethodsOkList, Bool.and_eq_true] at h
    obtain ⟨⟨hms, hch⟩, hrest⟩ := h
    have hsome : (methodLines (qualify pre name)
        (sortByKey (res.methods.getD []))).isSome = true := by
      apply methodLines_isSome
      intro p hp
      have hp' : p ∈ res.methods.getD [] :=
        (sortByKey_perm (res.methods.getD [])).mem_iff.mp hp
      exact List.all_eq_true.mp hms p hp'
    rw [hnone] at hsome
    cases hsome
  | case3 name res rest pre mls hmls hnone ihsub =>
    intro h
    simp only [allMethodsOkList, Bool.and_eq_true] at h
    obtain ⟨⟨hms, hch⟩, hrest⟩ := h
    have hch' : allMethodsOkList (sortByKey (res.resources.getD [])) = true := by
      rw [allMethodsOkList_perm (sortByKey_perm _)]
      exact hch
    have := ihsub hch'
    rw [hnone] at this
    cases this
  | case4 name res rest pre mls hmls sub hsub hnone ihsub ihrest =>
    intro h
    simp only [allMethodsOkList, Bool.and_eq_true] at h
    obtain ⟨⟨hms, hch⟩, hrest⟩ := h
    have := ihrest hrest
    rw [hnone] at this
    cases this
  | case5 name res rest pre mls hmls sub hsub tl htl ihsub ihrest =>
    intro _
    rw [extractGo_cons, hmls, hsub, htl]
    rfl

/-- Claim C1: `extract` iterates resource entries in lexicographic order
by resource name, not document order (its traversal order `sortByKey` is
key-sorted and a permutation of the input), and within a resource it
iterates method entries in lexicographic order by method name; in
particular for a document with resources `{"b": rb, "a": ra}` every
output line of `a`'s methods precedes every output line of `b`'s. -/
theorem extract_resource_lex_order :
    (∀ (l : List (String × ResourceNode)) (pre : String),
        extract l pre = extractGo (sortByKey l) pre) ∧
    (∀ (l : List (String × ResourceNode)),
        List.Sorted keyLe (sortByKey l) ∧ List.Perm (sortByKey l) l) ∧
    (∀ ra rb : ResourceNode,
        extract [("b", rb), ("a", ra)] "" =
          (extract [("a", ra)] "").bind (fun la =>
            (extract [("b", rb)] "").map (fun lb => la ++ lb))) ∧
    (∀ (hmA hmB : String) (pA pB : Option String),
        extract [("x", ResourceNode.mk
            (some [("b", ⟨some hmB, pB⟩), ("a", ⟨some hmA, pA⟩)]) none)] "" =
          some [formatLine hmA (pA.getD "N/A") "x.a",
                formatLine hmB (pB.getD "N/A") "x.b"]) := by
  refine ⟨fun l pre => rfl,
    fun l => ⟨List.sorted_insertionSort keyLe l, List.perm_insertionSort keyLe l⟩,
    ?_, ?_⟩
  · intro ra rb
    have hswap : sortByKey [("b", rb), ("a", ra)] = [("a", ra), ("b", rb)] := by
      simp [sortByKey, keyLe, strLe, strLeAux]
    have hsplit : ([("a", ra), ("b", rb)] : List (String × ResourceNode))
        = [("a", ra)] ++ [("b", rb)] := rfl
    simp only [extract, hswap, hsplit, extractGo_append, sortByKey_single]
  · intro hmA hmB pA pB
    simp [extract, sortByKey_single, extractGo_cons, extractGo_nil, methodLines,
      ResourceNode.methods, ResourceNode.resources, qualify, sortByKey, keyLe,
      strLe, strLeAux, sortByKey_nil]

/-- Claim C2: for every resource node, `extract` emits the resource's
own method lines first, then appends the lines of its nested resources
depth-first, recursing with the qualified path as the new dotted
prefix; the nested sample document produces exactly the two lines
`x.get` (path defaulting to "N/A") before `x.y.list` (path "/x/y"). -/
theorem extract_methods_before_children :
    (∀ (name pre : String) (res : ResourceNode),
        extract [(name, res)] pre =
          (methodLines (qualify pre name) (sortByKey (res.methods.getD []))).bind
            (fun mls => (extract (res.resources.getD []) (qualify pre name)).map
              (fun sub => mls ++ sub))) ∧
    (extract [("x", ResourceNode.mk (some [("get", ⟨some "GET", none⟩)])
        (some [("y", ResourceNode.mk (some [("list", ⟨some "GET", some "/x/y"⟩)]) none)]))] ""
      = some [formatLine "GET" "N/A" "x.get", formatLine "GET" "/x/y" "x.y.list"]) := by
  refine ⟨extract_single, ?_⟩
  simp [extract, sortByKey_single, extractGo_cons, extractGo_nil, methodLines,
    ResourceNode.methods, ResourceNode.resources, qualify, sortByKey_nil]

/-- Claim C3: a method whose `path` key is absent is emitted with the
literal string "N/A" in the path column, and a present `path` value is
used unchanged. -/
theorem extract_path_default :
    ∀ (name mname hm pre : String),
      (extract [(name, ResourceNode.mk (some [(mname, ⟨some hm, none⟩)]) none)] pre
        = some [formatLine hm "N/A" (qualify pre name ++ "." ++ mname)]) ∧
      (∀ p : String,
        extract [(name, ResourceNode.mk (some [(mname, ⟨some hm, some p⟩)]) none)] pre
          = some [formatLine hm p (qualify pre name ++ "." ++ mname)]) := by
  intro name mname hm pre
  constructor
  · simp [extract_single, ResourceNode.methods, ResourceNode.resources,
      sortByKey_single, sortByKey_nil, methodLines, extract_nil]
  · intro p
    simp [extract_single, ResourceNode.methods, ResourceNode.resources,
      sortByKey_single, sortByKey_nil, methodLines, extract_nil]

/-- Claim C4: the number of emitted lines equals the total number of
method entries over all reachable resource nodes, and the summary line
printed to stdout is exactly `"  {count} endpoints indexed."` with that
count. -/
theorem extract_count_and_summary :
    ∀ (doc : DiscoveryDoc) (lines : List String),
      mainLines doc = some lines →
      lines.length = countList (doc.resources.getD []) ∧
      summaryOutput doc =
        some ("  " ++ toString (countList (doc.resources.getD [])) ++ " endpoints indexed.") := by
  intro doc lines h
  have hlen : lines.length = countList (doc.resources.getD []) := by
    have := extractGo_length (sortByKey (doc.resources.getD [])) "" lines h
    rwa [countList_sortByKey] at this
  refine ⟨hlen, ?_⟩
  simp only [summaryOutput, h, Option.map_some', hlen]

/-- Witness for C4 at the one-resource, one-method document. -/
theorem extract_count_and_summary_witness :
    ([formatLine "GET" "N/A" "x.get"] : List String).length
      = countList ((DiscoveryDoc.mk (some [("x",
          ResourceNode.mk (some [("get", ⟨some "GET", none⟩)]) none)])).resources.getD []) ∧
    summaryOutput (DiscoveryDoc.mk (some [("x",
        ResourceNode.mk (some [("get", ⟨some "GET", none⟩)]) none)]))
      = some ("  " ++ toString (countList ((DiscoveryDoc.mk (some [("x",
          ResourceNode.mk (some [("get", ⟨some "GET", none⟩)]) none)])).resources.getD []))
          ++ " endpoints indexed.") :=
  extract_count_and_summary
    (DiscoveryDoc.mk (some [("x", ResourceNode.mk (some [("get", ⟨some "GET", none⟩)]) none)]))
    [formatLine "GET" "N/A" "x.get"]
    (by simp [mainLines, extract_single, ResourceNode.methods, ResourceNode.resources,
      sortByKey_single, sortByKey_nil, methodLines, extract_nil, qualify])

/-- Claim C5: the emitted lines are exactly the endpoint field triples
of the same traversal — the method's `httpMethod`, its `path` (with the
"N/A" default) and its `qualifiedName` — rendered as the http method
left-justified to width 6, one space, the path left-justified to width
60, one space, then the qualified name. -/
theorem extract_line_format :
    ∀ (l : List (String × ResourceNode)) (pre : String) (out : List String),
      extract l pre = some out →
      ∃ es : List (String × String × String),
        endpointFields l pre = some es ∧
        out = es.map (fun e => pyLjust e.1 6 ++ " " ++ pyLjust e.2.1 60 ++ " " ++ e.2.2) := by
  intro l pre out h
  rw [extract_eq_endpointFields] at h
  cases hf : endpointFields l pre with
  | none => rw [hf] at h; cases h
  | some es =>
    rw [hf] at h
    simp only [Option.map_some', Option.some.injEq] at h
    exact ⟨es, rfl, h.symm⟩

/-- Witness for C5 at the one-resource, one-method document. -/
theorem extract_line_format_witness :
    ∃ es : List (String × String × String),
      endpointFields [("x", ResourceNode.mk (some [("get", ⟨some "GET", none⟩)]) none)] ""
        = some es ∧
      [formatLine "GET" "N/A" "x.get"]
        = es.map (fun e => pyLjust e.1 6 ++ " " ++ pyLjust e.2.1 60 ++ " " ++ e.2.2) :=
  extract_line_format [("x", ResourceNode.mk (some [("get", ⟨some "GET", none⟩)]) none)] ""
    [formatLine "GET" "N/A" "x.get"]
    (by simp [extract_single, ResourceNode.methods, ResourceNode.resources,
      sortByKey_single, sortByKey_nil, methodLines, extract_nil, qualify])

/-- Claim C6: a missing `methods` or `resources` key raises no error and
behaves as the empty mapping, and the runner treats a document with no
top-level `resources` key as the empty mapping. -/
theorem extract_missing_maps_default :
    (∀ (name pre : String) (rs : Option (List (String × ResourceNode))),
        extract [(name, ResourceNode.mk none rs)] pre
          = extract [(name, ResourceNode.mk (some []) rs)] pre) ∧
    (∀ (name pre : String) (ms : Option (List (String × MethodSpec))),
        extract [(name, ResourceNode.mk ms none)] pre
          = extract [(name, ResourceNode.mk ms (some []))] pre) ∧
    (∀ (name pre : String),
        extract [(name, ResourceNode.mk none none)] pre = some []) ∧
    (mainLines ⟨none⟩ = extract [] "" ∧ mainLines ⟨none⟩ = some []) := by
  refine ⟨?_, ?_, ?_, rfl, ?_⟩
  · intro name pre rs
    simp [extract_single, ResourceNode.methods, ResourceNode.resources]
  · intro name pre ms
    simp [extract_single, ResourceNode.methods, ResourceNode.resources]
  · intro name pre
    simp [extract_single, ResourceNode.methods, ResourceNode.resources,
      sortByKey_nil, methodLines, extract_nil]
  · simp [mainLines, extract_nil]

/-- Claim C7: the qualified path is `prefix ++ "." ++ name` for a
non-empty prefix and `name` for the empty prefix, and an emitted method
line's qualified name is the qualified path joined to the method name
with a dot. -/
theorem extract_qualified_names :
    (∀ name : String, qualify "" name = name) ∧
    (∀ pre name : String, pre ≠ "" → qualify pre name = pre ++ "." ++ name) ∧
    (∀ (pre name mname hm : String) (p : Option String),
        extract [(name, ResourceNode.mk (some [(mname, ⟨some hm, p⟩)]) none)] pre
          = some [formatLine hm (p.getD "N/A") (qualify pre name ++ "." ++ mname)]) := by
  refine ⟨fun name => rfl, ?_, ?_⟩
  · intro pre name h
    simp [qualify, h]
  · intro pre name mname hm p
    simp [extract_single, ResourceNode.methods, ResourceNode.resources,
      sortByKey_single, sortByKey_nil, methodLines, extract_nil]

/-- Witness for C7 at the non-empty prefix "v3". -/
theorem extract_qualified_names_witness :
    qualify "v3" "apps" = "v3" ++ "." ++ "apps" :=
  extract_qualified_names.2.1 "v3" "apps" (by decide)

/-- Claim C8: an empty top-level resources mapping yields zero lines,
and the output file content is the newline-join of the lines plus one
trailing newline, which for zero lines is a single newline character. -/
theorem extract_empty_resources :
    extract [] "" = some [] ∧
    mainLines ⟨some []⟩ = some [] ∧
    outputFile ⟨some []⟩ = some "\n" ∧
    (∀ doc : DiscoveryDoc, outputFile doc
        = (mainLines doc).map (fun lines => String.intercalate "\n" lines ++ "\n")) := by
  refine ⟨extract_nil "", ?_, ?_, fun doc => rfl⟩
  · simp [mainLines, extract_nil]
  · simp only [outputFile, mainLines, outputFileContent]
    simp only [Option.getD_some, extract_nil, Option.map_some']
    rfl

/-- Claim C9: extraction is deterministic and pure: re-running it on the
same input yields the same lines (and the same file bytes and summary),
and the output depends only on the input entries. -/
theorem extract_deterministic :
    (∀ (l : List (String × ResourceNode)) (pre : String),
        extract l pre = extract l pre) ∧
    (∀ doc : DiscoveryDoc,
        outputFile doc = outputFile doc ∧ summaryOutput doc = summaryOutput doc) ∧
    (∀ (l₁ l₂ : List (String × ResourceNode)) (pre : String),
        sortByKey l₁ = sortByKey l₂ → extract l₁ pre = extract l₂ pre) := by
  refine ⟨fun l pre => rfl, fun doc => ⟨rfl, rfl⟩, ?_⟩
  intro l₁ l₂ pre h
  simp only [extract, h]

/-- Witness for C9: the same entries in either document order give the
same output. -/
theorem extract_deterministic_witness :
    extract [("b", ResourceNode.mk none none), ("a", ResourceNode.mk none none)] ""
      = extract [("a", ResourceNode.mk none none), ("b", ResourceNode.mk none none)] "" :=
  extract_deterministic.2.2 _ _ "" (by simp [sortByKey, keyLe, strLe, strLeAux])

/-- Claim C10: when every reachable method entry carries `httpMethod`,
`extract` cannot fail; a method entry without `httpMethod` makes
`extract` fail with a missing-key error rather than applying a
default. -/
theorem extract_httpMethod_required :
    (∀ (l : List (String × ResourceNode)) (pre : String),
        allMethodsOkList l = true → (extract l pre).isSome = true) ∧
    (extract [("x", ResourceNode.mk (some [("get", ⟨none, some "/x"⟩)]) none)] "" = none) := by
  constructor
  · intro l pre h
    have h' : allMethodsOkList (sortByKey l) = true := by
      rw [allMethodsOkList_perm (sortByKey_perm l)]
      exact h
    exact extractGo_isSome (sortByKey l) pre h'
  · simp [extract_single, ResourceNode.methods, ResourceNode.resources,
      sortByKey_single, methodLines]

/-- Witness for C10 at a document whose single method has `httpMethod`. -/
theorem extract_httpMethod_required_witness :
    allMethodsOkList [("x", ResourceNode.mk (some [("get", ⟨some "GET", none⟩)]) none)] = true ∧
    (extract [("x", ResourceNode.mk (some [("get", ⟨some "GET", none⟩)]) none)] "").isSome = true :=
  ⟨by simp [allMethodsOkList, ResourceNode.methods, ResourceNode.resources],
   extract_httpMethod_required.1 _ ""
     (by simp [allMethodsOkList, ResourceNode.methods, ResourceNode.resources])⟩
